import Mathlib

/-!
# Verification of the security-suite discovery-and-supervision engine

Shallow embedding of `skills/security-suite/scripts/security_suite.py`:
snapshot diffing, process-table descendant resolution, help probing,
breadth-first command-surface discovery, the dynamic supervision loop,
contract assembly, baseline comparison and policy evaluation, together
with theorems settling the specification's claims about them.

External effects (running the binary, reading the process table, listing
sockets, reading the clock) are modelled as oracle functions supplied as
parameters; everything else is translated directly from the Python source.
-/

namespace SecSuite

/-! ## Generic helpers (set-as-list and sorting idioms used by the source)

The Python code represents collections as `set`s and renders them with
`sorted(...)`.  We model a set as a duplicate-free list built with
`insertSet`, and `sorted` as an insertion sort `sortList`.  Only
membership matters to the claims, so the lemmas below characterise
membership through these operations. -/

/-- Insertion of one element into a sorted list (implements Python `sorted`). -/
def insertSorted {α : Type} [LinearOrder α] (x : α) : List α → List α
  | [] => [x]
  | y :: ys => if x ≤ y then x :: y :: ys else y :: insertSorted x ys

/-- `sorted(...)` over a list. -/
def sortList {α : Type} [LinearOrder α] (l : List α) : List α := l.foldr insertSorted []

/-- `set.add` for lists used as sets: append only when absent. -/
def insertSet {α : Type} [DecidableEq α] (l : List α) (x : α) : List α :=
  if x ∈ l then l else l ++ [x]

/-- `set.update` (union into the accumulating set). -/
def unionSet {α : Type} [DecidableEq α] (l : List α) (xs : List α) : List α :=
  xs.foldl insertSet l

theorem mem_insertSorted {α : Type} [LinearOrder α] {a x : α} {l : List α} :
    a ∈ insertSorted x l ↔ a = x ∨ a ∈ l := by
  induction l with
  | nil => simp [insertSorted]
  | cons y ys ih =>
    by_cases h : x ≤ y
    · simp [insertSorted, h]
    · simp [insertSorted, h, ih]
      tauto

theorem mem_sortList {α : Type} [LinearOrder α] {a : α} {l : List α} :
    a ∈ sortList l ↔ a ∈ l := by
  induction l with
  | nil => simp [sortList]
  | cons y ys ih =>
    simp only [sortList, List.foldr] at *
    rw [mem_insertSorted, ih]
    simp

theorem mem_insertSet {α : Type} [DecidableEq α] {a x : α} {l : List α} :
    a ∈ insertSet l x ↔ a = x ∨ a ∈ l := by
  unfold insertSet
  by_cases h : x ∈ l
  · simp [h]
    rintro rfl
    exact h
  · simp [h]
    tauto

theorem mem_unionSet {α : Type} [DecidableEq α] {a : α} {l xs : List α} :
    a ∈ unionSet l xs ↔ a ∈ l ∨ a ∈ xs := by
  induction xs generalizing l with
  | nil => simp [unionSet]
  | cons y ys ih =>
    show a ∈ unionSet (insertSet l y) ys ↔ _
    rw [ih, mem_insertSet]
    simp
    tauto

/-! ## FileTreeSnapshotter / FileDiff (`_snapshot_tree`, `_diff_snapshots`)

A snapshot maps a relative path to a `(size, mtime_ns)` pair; the Python
code stores it as a `dict`.  We model it as an association list; `snapLookup`
is dictionary access, `snapKeys` the key set. -/

structure SnapEntry where
  path : String
  size : Nat
  mtimeNs : Nat
  deriving DecidableEq, Repr

/-- A file snapshot: association list from relative path to stat facts. -/
def Snap : Type := List SnapEntry

/-- Key set of a snapshot (`dict.keys()`). -/
def snapKeys (s : Snap) : List String := s.map (·.path)

/-- Dictionary access `snap[k]`, returning the (size, mtime_ns) pair. -/
def snapLookup (s : Snap) (k : String) : Option (Nat × Nat) :=
  ((s : List SnapEntry).find? (·.path == k)).map (fun e => (e.size, e.mtimeNs))

structure FileDiff where
  created : List String
  modified : List String
  removed : List String
  deriving DecidableEq, Repr

/-- Translation of `_diff_snapshots`:
`created = sorted(a - b)`, `removed = sorted(b - a)`,
`modified = sorted(k for k in (a & b) if before[k] != after[k])`. -/
def diffSnapshots (before after : Snap) : FileDiff :=
  { created := sortList (((snapKeys after).filter
      (fun k => decide (k ∉ snapKeys before))).dedup)
    removed := sortList (((snapKeys before).filter
      (fun k => decide (k ∉ snapKeys after))).dedup)
    modified := sortList (((snapKeys after).filter
      (fun k => decide (k ∈ snapKeys before ∧ snapLookup before k ≠ snapLookup after k))).dedup) }

/-- C5: For every pair of snapshots, membership in `created` is exactly
"key of `after` but not of `before`", membership in `removed` is the
symmetric difference direction, and membership in `modified` is "key of
both whose (size, mtime_ns) pair differs"; diffing a snapshot against
itself yields empty created/modified/removed. -/
theorem diffSnapshots_spec (before after : Snap) (k : String) :
    ((k ∈ (diffSnapshots before after).created ↔
        k ∈ snapKeys after ∧ k ∉ snapKeys before) ∧
     (k ∈ (diffSnapshots before after).removed ↔
        k ∈ snapKeys before ∧ k ∉ snapKeys after) ∧
     (k ∈ (diffSnapshots before after).modified ↔
        k ∈ snapKeys after ∧ k ∈ snapKeys before ∧
          snapLookup before k ≠ snapLookup after k)) ∧
    ∀ s : Snap, diffSnapshots s s = ⟨[], [], []⟩ := by
  refine ⟨⟨?_, ?_, ?_⟩, ?_⟩
  · simp [diffSnapshots, mem_sortList, List.mem_filter, List.mem_dedup]
  · simp [diffSnapshots, mem_sortList, List.mem_filter, List.mem_dedup]
  · simp [diffSnapshots, mem_sortList, List.mem_filter, List.mem_dedup]
  · intro s
    have h1 : (snapKeys s).filter (fun k => decide (k ∉ snapKeys s)) = [] := by
      apply List.filter_eq_nil_iff.mpr
      intro a ha
      simp [ha]
    have h2 : (snapKeys s).filter
        (fun k => decide (k ∈ snapKeys s ∧ snapLookup s k ≠ snapLookup s k)) = [] := by
      apply List.filter_eq_nil_iff.mpr
      intro a _
      simp
    simp only [diffSnapshots, h1, h2, List.dedup_nil]
    rfl

/-! ## BaselineComparator (`_compare_baseline`) -/

/-- The slice of a persisted contract consumed by the comparator. -/
structure ContractRec where
  commandPaths : List String
  runtimeGuess : List String
  sha256 : Option String
  deriving DecidableEq, Repr

structure BaselineDiff where
  status : String
  currentCount : Nat
  baselineCount : Nat
  overlapCount : Nat
  added : List String
  removed : List String
  runtimeChanged : Bool
  deriving DecidableEq, Repr

/-- Translation of the comparison core of `_compare_baseline`:
set differences over the two contracts' `command_paths`, and
`status = "pass" if not removed else "fail"`. -/
def compareBaseline (cur base : ContractRec) : BaselineDiff :=
  let curCmds := cur.commandPaths.dedup
  let baseCmds := base.commandPaths.dedup
  let added := sortList (curCmds.filter (fun c => decide (c ∉ baseCmds)))
  let removed := sortList (baseCmds.filter (fun c => decide (c ∉ curCmds)))
  let overlap := sortList (curCmds.filter (fun c => decide (c ∈ baseCmds)))
  { status := if removed = [] then "pass" else "fail"
    currentCount := curCmds.length
    baselineCount := baseCmds.length
    overlapCount := overlap.length
    added := added
    removed := removed
    runtimeChanged := decide (cur.runtimeGuess ≠ base.runtimeGuess) }

theorem mem_removed_compareBaseline {cur base : ContractRec} {c : String} :
    c ∈ (compareBaseline cur base).removed ↔
      c ∈ base.commandPaths ∧ c ∉ cur.commandPaths := by
  simp [compareBaseline, mem_sortList, List.mem_filter, List.mem_dedup]

theorem mem_added_compareBaseline {cur base : ContractRec} {c : String} :
    c ∈ (compareBaseline cur base).added ↔
      c ∈ cur.commandPaths ∧ c ∉ base.commandPaths := by
  simp [compareBaseline, mem_sortList, List.mem_filter, List.mem_dedup]

/-- C1: For every pair of contracts, the baseline diff has status `"fail"` iff
some baseline command path is absent from the current contract (the
`removed` set is non-empty); comparing a contract with itself yields
status `"pass"` and empty `added`/`removed`. -/
theorem compareBaseline_status_fail_iff_removed (cur base : ContractRec) :
    ((compareBaseline cur base).status = "fail" ↔
      ∃ c ∈ base.commandPaths, c ∉ cur.commandPaths) ∧
    ((compareBaseline cur base).status = "fail" ↔
      (compareBaseline cur base).removed ≠ []) ∧
    ((compareBaseline cur cur).status = "pass" ∧
      (compareBaseline cur cur).added = [] ∧
      (compareBaseline cur cur).removed = []) := by
  have hrem : ∀ x y : ContractRec, ((compareBaseline x y).removed = [] ↔
      ∀ c ∈ y.commandPaths, c ∈ x.commandPaths) := by
    intro x y
    constructor
    · intro h c hc
      by_contra hnc
      have : c ∈ (compareBaseline x y).removed :=
        mem_removed_compareBaseline.mpr ⟨hc, hnc⟩
      rw [h] at this
      exact (List.not_mem_nil c) this
    · intro h
      rcases hne : (compareBaseline x y).removed with _ | ⟨c, rest⟩
      · rfl
      · have hc : c ∈ (compareBaseline x y).removed := by rw [hne]; exact List.mem_cons_self c rest
        have := mem_removed_compareBaseline.mp hc
        exact absurd (h c this.1) this.2
  have hstat : ∀ x y : ContractRec, ((compareBaseline x y).status = "fail" ↔
      (compareBaseline x y).removed ≠ []) := by
    intro x y
    unfold compareBaseline
    by_cases h : sortList ((y.commandPaths.dedup).filter
        (fun c => decide (c ∉ x.commandPaths.dedup))) = []
    · simp only [h, if_pos]
      constructor
      · intro hf; exact absurd hf (by decide)
      · intro hne; exact absurd rfl hne
    · simp only [h, if_neg]
      constructor
      · intro _; exact h
      · intro _; rfl
  refine ⟨?_, hstat cur base, ?_, ?_, ?_⟩
  · rw [hstat cur base]
    constructor
    · intro h
      rcases hne : (compareBaseline cur base).removed with _ | ⟨c, rest⟩
      · exact absurd hne h
      · have hc : c ∈ (compareBaseline cur base).removed := by
          rw [hne]; exact List.mem_cons_self c rest
        have := mem_removed_compareBaseline.mp hc
        exact ⟨c, this.1, this.2⟩
    · rintro ⟨c, hc, hnc⟩ hnil
      have : c ∈ (compareBaseline cur base).removed :=
        mem_removed_compareBaseline.mpr ⟨hc, hnc⟩
      rw [hnil] at this
      exact (List.not_mem_nil c) this
  · have : (compareBaseline cur cur).removed = [] := (hrem cur cur).mpr (fun c hc => hc)
    unfold compareBaseline at this ⊢
    simp only [List.filter_eq_nil_iff.mpr, this]
    by_cases h : sortList ((cur.commandPaths.dedup).filter
        (fun c => decide (c ∉ cur.commandPaths.dedup))) = []
    · simp only [h, if_pos]
    · exact absurd this h
  · rcases hne : (compareBaseline cur cur).added with _ | ⟨c, rest⟩
    · rfl
    · have hc : c ∈ (compareBaseline cur cur).added := by
        rw [hne]; exact List.mem_cons_self c rest
      have := mem_added_compareBaseline.mp hc
      exact absurd this.1 this.2
  · exact (hrem cur cur).mpr (fun c hc => hc)

/-! ## PolicyEvaluator (`_enforce_policy`)

Regular expressions are modelled as their denotation: a Boolean predicate
on strings (`re.search(p, v)` becomes `p v`).  The policy record carries
the fields read from the policy JSON with the source's defaults; the
contract / dynamic / compare records carry exactly the fields the
evaluator reads. -/

structure Finding where
  severity : String
  code : String
  message : String
  deriving DecidableEq, Repr

structure PolicyRec where
  requiredTopLevelCommands : List String
  denyCommandPatterns : List (String → Bool)
  maxCreatedFiles : Int
  forbidFilePathPatterns : List (String → Bool)
  allowNetworkEndpointPatterns : List (String → Bool)
  denyNetworkEndpointPatterns : List (String → Bool)
  blockIfRemovedCommands : Bool
  minCommandCount : Int

/-- The slice of the persisted contract read by the evaluator. -/
structure ContractFacts where
  topLevelCommands : List String
  commandPaths : List String
  deriving DecidableEq, Repr

/-- The slice of the dynamic-analysis record read by the evaluator; an
absent record is the same as empty lists. -/
structure DynamicFacts where
  createdHome : List String
  createdWork : List String
  endpoints : List String
  deriving DecidableEq, Repr

/-- The slice of the baseline diff read by the evaluator; an absent record
is the same as an empty `removed`. -/
structure CompareFacts where
  removed : List String
  deriving DecidableEq, Repr

/-- Translation of `_match_any`. -/
def matchAny (patterns : List (String → Bool)) (value : String) : Bool :=
  patterns.any (fun p => p value)

/-- Translation of the finding-accumulation body of `_enforce_policy`
(rules evaluated independently, in source order, each violation one
finding). -/
def enforcePolicy (policy : PolicyRec) (contract : ContractFacts)
    (dynamic : DynamicFacts) (compare : CompareFacts) : List Finding :=
  let top := contract.topLevelCommands
  let missing := sortList (policy.requiredTopLevelCommands.filter
    (fun c => decide (c ∉ top)))
  let f1 : List Finding :=
    if missing ≠ [] then
      [⟨"fail", "missing_required_commands",
        "missing required top-level commands: " ++ String.intercalate ", " missing⟩]
    else []
  let f2 : List Finding :=
    (contract.commandPaths.filter (matchAny policy.denyCommandPatterns)).map
      (fun cmd => ⟨"fail", "denied_command_pattern",
        "denied command pattern matched: " ++ cmd⟩)
  let createdFiles := dynamic.createdHome ++ dynamic.createdWork
  let f3 : List Finding :=
    if (createdFiles.length : Int) > policy.maxCreatedFiles then
      [⟨"fail", "too_many_created_files",
        "created files " ++ toString createdFiles.length ++ " exceeds max " ++
          toString policy.maxCreatedFiles⟩]
    else []
  let f4 : List Finding :=
    (createdFiles.filter (matchAny policy.forbidFilePathPatterns)).map
      (fun p => ⟨"fail", "forbidden_file_path", "forbidden created path: " ++ p⟩)
  let f5 : List Finding :=
    if policy.allowNetworkEndpointPatterns.isEmpty then []
    else
      (dynamic.endpoints.filter
          (fun ep => !matchAny policy.allowNetworkEndpointPatterns ep)).map
        (fun ep => ⟨"fail", "network_not_allowlisted",
          "network endpoint not allowlisted: " ++ ep⟩)
  let f6 : List Finding :=
    (dynamic.endpoints.filter (matchAny policy.denyNetworkEndpointPatterns)).map
      (fun ep => ⟨"fail", "network_denylisted",
        "denylisted network endpoint observed: " ++ ep⟩)
  let f7 : List Finding :=
    if policy.blockIfRemovedCommands ∧ compare.removed ≠ [] then
      [⟨"fail", "removed_commands",
        "commands removed vs baseline: " ++ toString compare.removed.length⟩]
    else []
  let f8 : List Finding :=
    if (contract.commandPaths.length : Int) < policy.minCommandCount then
      [⟨"warn", "low_command_count",
        "command count " ++ toString contract.commandPaths.length ++
          " below expected minimum " ++ toString policy.minCommandCount⟩]
    else []
  f1 ++ f2 ++ f3 ++ f4 ++ f5 ++ f6 ++ f7 ++ f8

/-- Translation of the verdict aggregation at the end of `_enforce_policy`. -/
def overallVerdict (findings : List Finding) : String :=
  if findings.any (fun f => f.severity == "fail") then "FAIL"
  else if findings ≠ [] then "WARN"
  else "PASS"

theorem overallVerdict_spec (findings : List Finding) :
    (overallVerdict findings = "FAIL" ↔ ∃ f ∈ findings, f.severity = "fail") ∧
    ((¬ ∃ f ∈ findings, f.severity = "fail") →
      (overallVerdict findings = "WARN" ↔ findings ≠ [])) ∧
    (findings = [] → overallVerdict findings = "PASS") := by
  unfold overallVerdict
  by_cases h : findings.any (fun f => f.severity == "fail")
  · have hex : ∃ f ∈ findings, f.severity = "fail" := by
      rcases List.any_eq_true.mp h with ⟨f, hf, hsev⟩
      exact ⟨f, hf, by simpa using hsev⟩
    refine ⟨?_, ?_, ?_⟩
    · simp [h, hex]
    · intro hne; exact absurd hex hne
    · rintro rfl; simp at h
  · have hnex : ¬ ∃ f ∈ findings, f.severity = "fail" := by
      rintro ⟨f, hf, hsev⟩
      exact h (List.any_eq_true.mpr ⟨f, hf, by simpa using hsev⟩)
    refine ⟨?_, ?_, ?_⟩
    · simp only [h]
      constructor
      · intro hcontra
        by_cases hn : findings = [] <;> simp [hn] at hcontra
      · intro hex; exact absurd hex hnex
    · intro _
      by_cases hn : findings = []
      · simp [h, hn]
      · simp [h, hn]
    · rintro rfl; simp

/-- C2: For every evaluator input, the overall verdict is `"FAIL"` iff some
produced finding has severity `"fail"`; otherwise it is `"WARN"` iff the
findings list is non-empty, and `"PASS"` when the list is empty. -/
theorem enforcePolicy_verdict_spec (policy : PolicyRec) (contract : ContractFacts)
    (dynamic : DynamicFacts) (compare : CompareFacts) :
    (overallVerdict (enforcePolicy policy contract dynamic compare) = "FAIL" ↔
      ∃ f ∈ enforcePolicy policy contract dynamic compare, f.severity = "fail") ∧
    ((¬ ∃ f ∈ enforcePolicy policy contract dynamic compare, f.severity = "fail") →
      (overallVerdict (enforcePolicy policy contract dynamic compare) = "WARN" ↔
        enforcePolicy policy contract dynamic compare ≠ [])) ∧
    (enforcePolicy policy contract dynamic compare = [] →
      overallVerdict (enforcePolicy policy contract dynamic compare) = "PASS") :=
  overallVerdict_spec (enforcePolicy policy contract dynamic compare)

/-- Every finding produced by the evaluator is either a `"fail"` finding
with a code other than `low_command_count`, or the `"warn"` finding with
code `low_command_count`. -/
theorem enforcePolicy_severities (policy : PolicyRec) (contract : ContractFacts)
    (dynamic : DynamicFacts) (compare : CompareFacts) :
    ∀ f ∈ enforcePolicy policy contract dynamic compare,
      (f.severity = "fail" ∧ f.code ≠ "low_command_count") ∨
      (f.severity = "warn" ∧ f.code = "low_command_count") := by
  intro f hf
  unfold enforcePolicy at hf
  simp only [List.mem_append, List.mem_map, List.mem_filter] at hf
  rcases hf with ((((((h1 | h2) | h3) | h4) | h5) | h6) | h7) | h8
  · split at h1 <;> simp_all
  · rcases h2 with ⟨c, _, rfl⟩; simp
  · split at h3 <;> simp_all
  · rcases h4 with ⟨c, _, rfl⟩; simp
  · split at h5
    · simp at h5
    · rcases List.mem_map.mp h5 with ⟨c, _, rfl⟩; simp
  · rcases h6 with ⟨c, _, rfl⟩; simp
  · split at h7 <;> simp_all
  · split at h8 <;> simp_all

/-- C9: A `min_command_count` violation always yields a `"warn"` (never
`"fail"`) finding, and when every produced finding is the
`low_command_count` one, the overall verdict is `"WARN"`, not `"FAIL"`. -/
theorem enforcePolicy_minCommandCount_warn (policy : PolicyRec)
    (contract : ContractFacts) (dynamic : DynamicFacts) (compare : CompareFacts) :
    (∀ f ∈ enforcePolicy policy contract dynamic compare,
      f.code = "low_command_count" → f.severity = "warn") ∧
    ((∀ f ∈ enforcePolicy policy contract dynamic compare,
        f.code = "low_command_count") →
      enforcePolicy policy contract dynamic compare ≠ [] →
      overallVerdict (enforcePolicy policy contract dynamic compare) = "WARN") := by
  constructor
  · intro f hf hcode
    rcases enforcePolicy_severities policy contract dynamic compare f hf with
      ⟨_, hne⟩ | ⟨hw, _⟩
    · exact absurd hcode hne
    · exact hw
  · intro hall hne
    have hnofail : ¬ ∃ f ∈ enforcePolicy policy contract dynamic compare,
        f.severity = "fail" := by
      rintro ⟨f, hf, hsev⟩
      rcases enforcePolicy_severities policy contract dynamic compare f hf with
        ⟨_, hcne⟩ | ⟨hw, _⟩
      · exact hcne (hall f hf)
      · rw [hw] at hsev; exact absurd hsev (by decide)
    exact ((overallVerdict_spec _).2.1 hnofail).mpr hne

/-- An empty policy: no rules configured (source defaults). -/
def polEmpty : PolicyRec := ⟨[], [], 999999, [], [], [], false, 0⟩

/-- A policy whose only configured rule is `min_command_count = 5`. -/
def polMinFive : PolicyRec := ⟨[], [], 999999, [], [], [], false, 5⟩

def conEmpty : ContractFacts := ⟨[], []⟩

def dynEmpty : DynamicFacts := ⟨[], [], []⟩

def cmpEmpty : CompareFacts := ⟨[]⟩

/-- C2 witness: the verdict characterisation at a concrete evaluator input. -/
theorem enforcePolicy_verdict_spec_witness :
    (overallVerdict (enforcePolicy polEmpty conEmpty dynEmpty cmpEmpty) = "FAIL" ↔
      ∃ f ∈ enforcePolicy polEmpty conEmpty dynEmpty cmpEmpty, f.severity = "fail") ∧
    ((¬ ∃ f ∈ enforcePolicy polEmpty conEmpty dynEmpty cmpEmpty, f.severity = "fail") →
      (overallVerdict (enforcePolicy polEmpty conEmpty dynEmpty cmpEmpty) = "WARN" ↔
        enforcePolicy polEmpty conEmpty dynEmpty cmpEmpty ≠ [])) ∧
    (enforcePolicy polEmpty conEmpty dynEmpty cmpEmpty = [] →
      overallVerdict (enforcePolicy polEmpty conEmpty dynEmpty cmpEmpty) = "PASS") :=
  enforcePolicy_verdict_spec polEmpty conEmpty dynEmpty cmpEmpty

/-- C9 witness: with only `min_command_count = 5` configured and an empty
contract, the single finding is the `low_command_count` warn and the
verdict is `WARN`. -/
theorem enforcePolicy_minCommandCount_warn_witness :
    ((∀ f ∈ enforcePolicy polMinFive conEmpty dynEmpty cmpEmpty,
        f.code = "low_command_count") ∧
      enforcePolicy polMinFive conEmpty dynEmpty cmpEmpty ≠ []) ∧
    overallVerdict (enforcePolicy polMinFive conEmpty dynEmpty cmpEmpty) = "WARN" := by
  have h1 : enforcePolicy polMinFive conEmpty dynEmpty cmpEmpty =
      [⟨"warn", "low_command_count", "command count 0 below expected minimum 5"⟩] := by
    rfl
  have hall : ∀ f ∈ enforcePolicy polMinFive conEmpty dynEmpty cmpEmpty,
      f.code = "low_command_count" := by
    intro f hf
    rw [h1] at hf
    rw [List.mem_singleton.mp hf]
  have hne : enforcePolicy polMinFive conEmpty dynEmpty cmpEmpty ≠ [] := by
    rw [h1]
    simp
  exact ⟨⟨hall, hne⟩,
    (enforcePolicy_minCommandCount_warn polMinFive conEmpty dynEmpty cmpEmpty).2
      hall hne⟩

/-! ## ProbeRunner heuristics (`_probe_help`)

The probe runner is modelled by an oracle `run : List String → String`
mapping the argument vector passed to the binary to the combined
stdout+stderr text the source builds
(`txt = (r.stdout or "") + ("\n" + r.stderr if r.stderr else "")`). -/

/-- Boolean "is the first list a prefix of the second" over characters. -/
def isPrefixB : List Char → List Char → Bool
  | [], _ => true
  | _ :: _, [] => false
  | c :: cs, d :: ds => c == d && isPrefixB cs ds

/-- Boolean substring test over characters. -/
def containsSub (pat : List Char) : List Char → Bool
  | [] => isPrefixB pat []
  | c :: cs => isPrefixB pat (c :: cs) || containsSub pat cs

/-- Substring test on strings (`re.search` of a literal alternative). -/
def strContains (pat s : String) : Bool := containsSub pat.data s.data

/-- Translation of the acceptance test in `_probe_help`:
`re.search(r"Usage|USAGE|Commands|Subcommands|Flags|Options|help", txt)`.
Note the regex carries no `re.IGNORECASE` flag: the markers are matched
case-sensitively, exactly as written. -/
def looksLikeHelp (txt : String) : Bool :=
  ["Usage", "USAGE", "Commands", "Subcommands", "Flags", "Options", "help"].any
    (fun m => strContains m txt)

/-- Translation of the probe-variant list built by `_probe_help`: four
variants for a non-empty command path, three for the root (where the
`help`-prefixed and `help`-suffixed variants coincide as `["help"]`). -/
def probeList (path : List String) : List (String × List String) :=
  if path ≠ [] then
    [("--help", path ++ ["--help"]),
     ("-h", path ++ ["-h"]),
     ("help-prefix", "help" :: path),
     ("help-suffix", path ++ ["help"])]
  else
    [("--help", ["--help"]),
     ("-h", ["-h"]),
     ("help", ["help"])]

/-- Translation of the probe loop of `_probe_help`: run the variants in
order and return on the first whose output passes `looksLikeHelp`. -/
def probeFirst (run : List String → String) :
    List (String × List String) → Bool × String × String
  | [] => (false, "", "")
  | (name, args) :: rest =>
    let txt := run args
    if looksLikeHelp txt then (true, name, txt) else probeFirst run rest

/-- Translation of `_probe_help`. -/
def probeHelp (run : List String → String) (path : List String) :
    Bool × String × String :=
  probeFirst run (probeList path)

/-- The specification's claimed acceptance test: the case-insensitive
help-output signature over the markers it names. -/
def looksLikeHelpCI (txt : String) : Bool :=
  ["usage", "commands", "flags", "options"].any
    (fun m => strContains m ⟨txt.data.map Char.toLower⟩)

/-- The claimed probe behaviour: accept the first of the four variants
(in the claimed order, for any path) whose output matches the
case-insensitive signature. -/
def claimedAccept (run : List String → String) (path : List String) : Bool :=
  ([path ++ ["--help"], path ++ ["-h"], "help" :: path, path ++ ["help"]].any
    (fun args => looksLikeHelpCI (run args)))

/-- A synthetic binary whose help output uses a lower-case `usage:` banner. -/
def lowerCaseHelpRun : List String → String := fun _ => "usage: demo [args]"

/-- C3 counterexample: on output `"usage: demo [args]"` the claimed
case-insensitive signature accepts the first variant, but `_probe_help`
accepts nothing — its regex has no `re.IGNORECASE` flag, so the node
yields no children. -/
theorem probeHelp_not_case_insensitive :
    claimedAccept lowerCaseHelpRun ["sub"] = true ∧
    probeHelp lowerCaseHelpRun ["sub"] = (false, "", "") := by
  constructor
  · rfl
  · rfl

/-- C3 (amended): for every probe oracle and command path, `_probe_help`
runs the fixed probe variants in order — `<path> --help`, `<path> -h`,
`help <path>`, `<path> help` for a non-empty path, the three distinct
variants `--help`, `-h`, `help` at the root — and accepts exactly the
first variant whose combined stdout+stderr matches the case-SENSITIVE
signature `Usage|USAGE|Commands|Subcommands|Flags|Options|help`; if no
variant matches it returns the failure triple, so the node yields no
further children. -/
theorem probeHelp_first_match (run : List String → String) (path : List String) :
    probeHelp run path =
      match (probeList path).find? (fun na => looksLikeHelp (run na.2)) with
      | some (name, args) => (true, name, run args)
      | none => (false, "", "") := by
  unfold probeHelp
  induction probeList path with
  | nil => rfl
  | cons na rest ih =>
    rcases na with ⟨name, args⟩
    by_cases h : looksLikeHelp (run args)
    · simp [probeFirst, h, List.find?]
    · simp only [probeFirst, h, if_neg, Bool.false_eq_true, not_false_eq_true, ih]
      rw [List.find?]
      simp [h]

/-! ## ProcessTableReader / DescendantSet (`_collect_process_table`, `_descendants`)

A process-table snapshot is a list of records (pid, ppid, command line);
the Python code stores it as a `dict` keyed by pid, iterated in insertion
order.  `_descendants` grows `out = {root_pid}` with a
repeat-until-no-change sweep over the table. -/

structure ProcRecord where
  pid : Nat
  ppid : Nat
  command : String
  deriving DecidableEq, Repr

/-- One sweep of the inner `for pid, meta in table.items()` loop of
`_descendants`: records already in `out` are skipped, records whose
parent is in the accumulator are appended (the accumulator is a set
modelled as a duplicate-free list). -/
def descPass (table : List ProcRecord) (out : List Nat) : List Nat :=
  table.foldl
    (fun acc r =>
      if r.pid ∈ acc then acc
      else if r.ppid ∈ acc then acc ++ [r.pid]
      else acc)
    out

theorem descPass_extends (table : List ProcRecord) (out : List Nat) :
    ∃ extra, descPass table out = out ++ extra ∧
      ∀ p ∈ extra, p ∈ table.map (·.pid) ∧ p ∉ out := by
  induction table generalizing out with
  | nil => exact ⟨[], by simp [descPass]⟩
  | cons r rest ih =>
    show ∃ extra,
      descPass rest (if r.pid ∈ out then out
        else if r.ppid ∈ out then out ++ [r.pid] else out) = out ++ extra ∧ _
    by_cases h1 : r.pid ∈ out
    · simp only [h1, if_pos]
      rcases ih out with ⟨extra, heq, hmem⟩
      exact ⟨extra, heq, fun p hp => ⟨by simp [(hmem p hp).1], (hmem p hp).2⟩⟩
    · by_cases h2 : r.ppid ∈ out
      · simp only [h1, if_neg, h2, if_pos, not_false_eq_true]
        rcases ih (out ++ [r.pid]) with ⟨extra, heq, hmem⟩
        refine ⟨r.pid :: extra, by simpa using heq, ?_⟩
        intro p hp
        rcases List.mem_cons.mp hp with rfl | hp2
        · exact ⟨by simp, h1⟩
        · refine ⟨by simp [(hmem p hp2).1], fun hpo => (hmem p hp2).2 ?_⟩
          simp [hpo]
      · simp only [h1, if_neg, h2, if_neg, not_false_eq_true]
        rcases ih out with ⟨extra, heq, hmem⟩
        exact ⟨extra, heq, fun p hp => ⟨by simp [(hmem p hp).1], (hmem p hp).2⟩⟩

theorem subset_descPass (table : List ProcRecord) (out : List Nat) :
    out ⊆ descPass table out := by
  rcases descPass_extends table out with ⟨extra, heq, _⟩
  rw [heq]
  exact List.subset_append_left out extra

/-- A record whose parent is already in the accumulator ends up in the
accumulator after one sweep. -/
theorem descPass_adds (table : List ProcRecord) (out : List Nat)
    (r : ProcRecord) (hr : r ∈ table) (hpp : r.ppid ∈ out) :
    r.pid ∈ descPass table out := by
  induction table generalizing out with
  | nil => cases hr
  | cons s rest ih =>
    show r.pid ∈ descPass rest (if s.pid ∈ out then out
      else if s.ppid ∈ out then out ++ [s.pid] else out)
    rcases List.mem_cons.mp hr with rfl | hr2
    · by_cases h1 : r.pid ∈ out
      · by_cases h2 : r.ppid ∈ out
        · simp only [h1, if_pos]
          exact subset_descPass rest out h1
        · exact absurd hpp h2
      · simp only [h1, if_neg, hpp, if_pos, not_false_eq_true]
        exact subset_descPass rest (out ++ [r.pid]) (by simp)
    · have hsub : out ⊆ (if s.pid ∈ out then out
        else if s.ppid ∈ out then out ++ [s.pid] else out) := by
        split
        · exact fun a ha => ha
        · split
          · exact List.subset_append_left out [s.pid]
          · exact fun a ha => ha
      exact ih _ hr2 (hsub hpp)

theorem filter_length_mono {α : Type} (l : List α) (p q : α → Bool)
    (himp : ∀ a, q a = true → p a = true) :
    (l.filter q).length ≤ (l.filter p).length := by
  induction l with
  | nil => simp
  | cons b rest ih =>
    by_cases hq : q b = true
    · rw [List.filter_cons_of_pos hq, List.filter_cons_of_pos (himp b hq)]
      simpa using ih
    · rw [List.filter_cons_of_neg (by simpa using hq)]
      by_cases hp : p b = true
      · rw [List.filter_cons_of_pos hp]
        exact Nat.le_succ_of_le ih
      · rw [List.filter_cons_of_neg (by simpa using hp)]
        exact ih

/-- The strict-decrease lemma behind termination of the
repeat-until-no-change loop: a productive sweep strictly shrinks the set
of table pids not yet in the accumulator. -/
theorem filter_length_lt {α : Type} {l : List α} {p q : α → Bool}
    (himp : ∀ a, q a = true → p a = true) (a : α) (hal : a ∈ l)
    (hap : p a = true) (haq : q a = false) :
    (l.filter q).length < (l.filter p).length := by
  induction l with
  | nil => cases hal
  | cons b rest ih =>
    rcases List.mem_cons.mp hal with rfl | hb
    · rw [List.filter_cons_of_neg (by simp [haq]), List.filter_cons_of_pos hap]
      exact Nat.lt_succ_of_le (filter_length_mono rest p q himp)
    · by_cases hq : q b = true
      · rw [List.filter_cons_of_pos hq, List.filter_cons_of_pos (himp b hq)]
        simpa using ih hb
      · rw [List.filter_cons_of_neg (by simpa using hq)]
        by_cases hp : p b = true
        · rw [List.filter_cons_of_pos hp]
          exact Nat.lt_succ_of_le (Nat.le_of_lt (ih hb))
        · rw [List.filter_cons_of_neg (by simpa using hp)]
          exact ih hb

theorem descMeasure_lt (table : List ProcRecord) (out : List Nat)
    (h : descPass table out ≠ out) :
    ((table.map (·.pid)).dedup.filter
        (fun p => decide (p ∉ descPass table out))).length <
    ((table.map (·.pid)).dedup.filter (fun p => decide (p ∉ out))).length := by
  rcases descPass_extends table out with ⟨extra, heq, hmem⟩
  rcases extra with _ | ⟨q, qs⟩
  · rw [heq] at h; simp at h
  · have hq := hmem q (by simp)
    refine filter_length_lt ?_ q ?_ ?_ ?_
    · intro a ha
      simp only [decide_eq_true_eq] at ha ⊢
      intro hout
      exact ha (subset_descPass table out hout)
    · exact List.mem_dedup.mpr hq.1
    · simpa using hq.2
    · simp [heq]

/-- Translation of the `while changed` loop of `_descendants`: sweep the
table until a sweep adds nothing. -/
def descLoop (table : List ProcRecord) (out : List Nat) : List Nat :=
  if h : descPass table out = out then out
  else descLoop table (descPass table out)
  termination_by ((table.map (·.pid)).dedup.filter (fun p => decide (p ∉ out))).length
  decreasing_by exact descMeasure_lt table out h

/-- Translation of `_descendants`: start from `{root_pid}` and sweep to a
fixpoint. -/
def descendants (rootPid : Nat) (table : List ProcRecord) : List Nat :=
  descLoop table [rootPid]

theorem descLoop_subset_fixpoint (table : List ProcRecord) (out : List Nat) :
    out ⊆ descLoop table out ∧
      descPass table (descLoop table out) = descLoop table out := by
  refine descLoop.induct table
    (fun o => o ⊆ descLoop table o ∧
      descPass table (descLoop table o) = descLoop table o) ?_ ?_ out
  · intro x h
    rw [descLoop, dif_pos h]
    exact ⟨fun a ha => ha, h⟩
  · intro x h ih
    rw [descLoop, dif_neg h]
    exact ⟨fun a ha => ih.1 (subset_descPass table x ha), ih.2⟩

/-- C4: For every process-table snapshot containing the root pid, the
computed descendant set contains the root pid and is closed under the
parent-pid relation: every record whose parent pid is in the set has its
own pid in the set. -/
theorem descendants_root_mem_and_closed (table : List ProcRecord) (rootPid : Nat)
    (hroot : rootPid ∈ table.map (·.pid)) :
    rootPid ∈ descendants rootPid table ∧
    ∀ r ∈ table, r.ppid ∈ descendants rootPid table →
      r.pid ∈ descendants rootPid table := by
  rcases descLoop_subset_fixpoint table [rootPid] with ⟨hsub, hfix⟩
  constructor
  · exact hsub (by simp)
  · intro r hr hpp
    have := descPass_adds table (descLoop table [rootPid]) r hr hpp
    rw [hfix] at this
    exact this

/-- C4 witness: a concrete two-record table rooted at pid 1. -/
theorem descendants_root_mem_and_closed_witness :
    (1 : Nat) ∈ ([⟨1, 0, "init"⟩, ⟨2, 1, "child"⟩] : List ProcRecord).map (·.pid) ∧
    ((1 : Nat) ∈ descendants 1 [⟨1, 0, "init"⟩, ⟨2, 1, "child"⟩] ∧
      ∀ r ∈ ([⟨1, 0, "init"⟩, ⟨2, 1, "child"⟩] : List ProcRecord),
        r.ppid ∈ descendants 1 [⟨1, 0, "init"⟩, ⟨2, 1, "child"⟩] →
        r.pid ∈ descendants 1 [⟨1, 0, "init"⟩, ⟨2, 1, "child"⟩]) :=
  ⟨by decide, descendants_root_mem_and_closed _ 1 (by decide)⟩

/-! ## DynamicSupervisor polling loop (`_collect_dynamic`)

Oracles: `poll i` is `proc.poll()` at iteration `i` (`none` while the
child runs, `some rc` once it has exited with code `rc`); `clock i` is the
elapsed wall-clock seconds read at the top of iteration `i`; `tables i` is
the process-table snapshot `_collect_process_table()` returns at iteration
`i` (a failed read is the empty table — `_run` catches `TimeoutExpired`
and `FileNotFoundError`, and unparsable lines are skipped, so the reader
never raises); `net i pids` is what `_collect_network_endpoints` returns
at iteration `i` for the given pid set.  On timeout the source sets
`timed_out = True`, kills the process group, breaks, and records
`rc = -9 if timed_out else proc.returncode`. -/

/-- The pid set attributed to one poll tick:
`_descendants(proc.pid, table) if proc.pid in table else {proc.pid}`. -/
def tickPids (rootPid : Nat) (table : List ProcRecord) : List Nat :=
  if rootPid ∈ table.map (·.pid) then descendants rootPid table else [rootPid]

/-- Command lines attributed to one poll tick: `table.get(pid)` for each
pid in the tick's set, kept when the record exists and its command line is
non-empty. -/
def tickCmds (table : List ProcRecord) (pids : List Nat) : List String :=
  pids.filterMap (fun p =>
    (table.find? (fun r => r.pid == p)).bind
      (fun r => if r.command ≠ "" then some r.command else none))

structure DynState where
  seenPids : List Nat
  seenCmds : List String
  seenEps : List String
  deriving DecidableEq, Repr

structure DynResult where
  timedOut : Bool
  exitCode : Int
  pidsObserved : List Nat
  processesObserved : List String
  networkEndpointsObserved : List String
  deriving DecidableEq, Repr

/-- Translation of the `while proc.poll() is None` supervision loop of
`_collect_dynamic`, with an explicit iteration counter and fuel (the
returned triple is `(timed_out, rc, accumulated sets)`). -/
def dynLoopFuel (poll : Nat → Option Int) (clock : Nat → Nat)
    (tables : Nat → List ProcRecord) (net : Nat → List Nat → List String)
    (timeoutS : Nat) (rootPid : Nat) :
    Nat → Nat → DynState → Option (Bool × Int × DynState)
  | 0, _, _ => none
  | fuel + 1, i, st =>
    match poll i with
    | some rc => some (false, rc, st)
    | none =>
      let table := tables i
      let pids := tickPids rootPid table
      let st1 : DynState :=
        { seenPids := unionSet st.seenPids pids
          seenCmds := unionSet st.seenCmds (tickCmds table pids)
          seenEps := unionSet st.seenEps (net i pids) }
      if timeoutS ≤ clock i then some (true, -9, st1)
      else dynLoopFuel poll clock tables net timeoutS rootPid fuel (i + 1) st1

/-- Assembly of the observation fields of the dynamic-analysis record
(`pids_observed = sorted(seen_pids)` etc., `exit_code`, `timed_out`). -/
def collectDynamic (poll : Nat → Option Int) (clock : Nat → Nat)
    (tables : Nat → List ProcRecord) (net : Nat → List Nat → List String)
    (timeoutS : Nat) (rootPid : Nat) (fuel : Nat) : Option DynResult :=
  match dynLoopFuel poll clock tables net timeoutS rootPid fuel 0
      ⟨[], [], []⟩ with
  | some (t, rc, st) => some
      { timedOut := t
        exitCode := rc
        pidsObserved := sortList st.seenPids
        processesObserved := sortList st.seenCmds
        networkEndpointsObserved := sortList st.seenEps }
  | none => none

theorem root_mem_descendants (rootPid : Nat) (table : List ProcRecord) :
    rootPid ∈ descendants rootPid table :=
  (descLoop_subset_fixpoint table [rootPid]).1 (by simp)

theorem root_mem_tickPids (rootPid : Nat) (table : List ProcRecord) :
    rootPid ∈ tickPids rootPid table := by
  unfold tickPids
  split
  · exact root_mem_descendants rootPid table
  · simp

/-- Termination of the supervision loop: fuel one past the first tick at
which the child has exited or the budget is reached suffices. -/
theorem dynLoopFuel_terminates (poll : Nat → Option Int) (clock : Nat → Nat)
    (tables : Nat → List ProcRecord) (net : Nat → List Nat → List String)
    (timeoutS : Nat) (rootPid : Nat) :
    ∀ k i st, (poll (i + k) ≠ none ∨ timeoutS ≤ clock (i + k)) →
      ∃ out, dynLoopFuel poll clock tables net timeoutS rootPid (k + 1) i st = some out := by
  intro k
  induction k with
  | zero =>
    intro i st hdec
    rcases hp : poll i with _ | rc
    · rcases hdec with hne | hT
      · simp [hp] at hne
      · simp only [dynLoopFuel, hp]
        rw [if_pos (by simpa using hT)]
        exact ⟨_, rfl⟩
    · simp only [dynLoopFuel, hp]
      exact ⟨_, rfl⟩
  | succ k ih =>
    intro i st hdec
    rcases hp : poll i with _ | rc
    · by_cases hT : timeoutS ≤ clock i
      · simp only [dynLoopFuel, hp]
        rw [if_pos hT]
        exact ⟨_, rfl⟩
      · have hnext : poll ((i + 1) + k) ≠ none ∨ timeoutS ≤ clock ((i + 1) + k) := by
          have : (i + 1) + k = i + (k + 1) := by omega
          rw [this]
          exact hdec
        rcases ih (i + 1) _ hnext with ⟨out, hout⟩
        refine ⟨out, ?_⟩
        simp only [dynLoopFuel, hp]
        rw [if_neg hT]
        exact hout
    · simp only [dynLoopFuel, hp]
      exact ⟨_, rfl⟩

/-- Exit-code/timeout soundness of the supervision loop: a `timed_out`
result carries exit code `-9` and stems from a tick where the budget was
reached with the child still running; a normal result carries an exit
code the child actually reported. -/
theorem dynLoopFuel_sound (poll : Nat → Option Int) (clock : Nat → Nat)
    (tables : Nat → List ProcRecord) (net : Nat → List Nat → List String)
    (timeoutS : Nat) (rootPid : Nat) :
    ∀ fuel i st t rc st2,
      dynLoopFuel poll clock tables net timeoutS rootPid fuel i st = some (t, rc, st2) →
      (t = true → rc = -9 ∧
        ∃ j, i ≤ j ∧ timeoutS ≤ clock j ∧ ∀ l, i ≤ l → l ≤ j → poll l = none) ∧
      (t = false → ∃ j, i ≤ j ∧ poll j = some rc ∧
        ∀ l, i ≤ l → l < j → poll l = none ∧ clock l < timeoutS) := by
  intro fuel
  induction fuel with
  | zero => intro i st t rc st2 h; simp [dynLoopFuel] at h
  | succ fuel ih =>
    intro i st t rc st2 h
    rcases hp : poll i with _ | rc0
    · simp only [dynLoopFuel, hp] at h
      by_cases hT : timeoutS ≤ clock i
      · rw [if_pos hT] at h
        injection h with h
        injection h with h1 h
        injection h with h2 h3
        subst h1; subst h2
        refine ⟨fun _ => ⟨rfl, i, le_refl i, hT, ?_⟩, fun hfalse => by cases hfalse⟩
        intro l hl1 hl2
        have : l = i := le_antisymm hl2 hl1
        rw [this]; exact hp
      · rw [if_neg hT] at h
        have := ih (i + 1) _ t rc st2 h
        refine ⟨?_, ?_⟩
        · intro ht
          rcases (this.1 ht) with ⟨hrc, j, hij, hTj, hall⟩
          refine ⟨hrc, j, by omega, hTj, ?_⟩
          intro l hl1 hl2
          by_cases hli : l = i
          · rw [hli]; exact hp
          · exact hall l (by omega) hl2
        · intro ht
          rcases (this.2 ht) with ⟨j, hij, hpj, hall⟩
          refine ⟨j, by omega, hpj, ?_⟩
          intro l hl1 hl2
          by_cases hli : l = i
          · rw [hli]; exact ⟨hp, by omega⟩
          · exact hall l (by omega) hl2
    · simp only [dynLoopFuel, hp] at h
      injection h with h
      injection h with h1 h
      injection h with h2 h3
      subst h1; subst h2
      constructor
      · intro ht
        exact absurd ht (by decide)
      · intro _
        refine ⟨i, le_refl i, hp, ?_⟩
        intro l hl1 hl2
        omega

/-- C7: Whenever the supervised child eventually exits or the wall clock
eventually reaches the budget, the supervision loop completes; if it timed
out it records `timed_out = true` and `exit_code = -9` after a tick where
the budget was reached with the child still running at every tick so far;
otherwise it records `timed_out = false` and the child's real exit code,
every earlier tick having seen the child running within the budget. -/
theorem collectDynamic_timeout_spec (poll : Nat → Option Int) (clock : Nat → Nat)
    (tables : Nat → List ProcRecord) (net : Nat → List Nat → List String)
    (timeoutS : Nat) (rootPid : Nat) (k : Nat)
    (hdec : poll k ≠ none ∨ timeoutS ≤ clock k) :
    ∃ fuel r, collectDynamic poll clock tables net timeoutS rootPid fuel = some r ∧
      (r.timedOut = true → r.exitCode = -9 ∧
        ∃ j, timeoutS ≤ clock j ∧ ∀ l ≤ j, poll l = none) ∧
      (r.timedOut = false → ∃ j, poll j = some r.exitCode ∧
        ∀ l < j, poll l = none ∧ clock l < timeoutS) := by
  rcases dynLoopFuel_terminates poll clock tables net timeoutS rootPid k 0
      ⟨[], [], []⟩ (by simpa using hdec) with ⟨⟨t, rc, st⟩, hout⟩
  have hsound := dynLoopFuel_sound poll clock tables net timeoutS rootPid
    (k + 1) 0 ⟨[], [], []⟩ t rc st hout
  have hres : collectDynamic poll clock tables net timeoutS rootPid (k + 1) =
      some { timedOut := t, exitCode := rc, pidsObserved := sortList st.seenPids
             processesObserved := sortList st.seenCmds
             networkEndpointsObserved := sortList st.seenEps } := by
    rw [collectDynamic, hout]
  refine ⟨k + 1, _, hres, ?_, ?_⟩
  · intro ht
    rcases hsound.1 ht with ⟨hrc, j, _, hTj, hall⟩
    exact ⟨hrc, j, hTj, fun l hl => hall l (Nat.zero_le l) hl⟩
  · intro ht
    rcases hsound.2 ht with ⟨j, _, hpj, hall⟩
    exact ⟨j, hpj, fun l hl => hall l (Nat.zero_le l) hl⟩

/-- C7 witness: a child that has already exited with code 3 at the first
poll, under budget 5. -/
theorem collectDynamic_timeout_spec_witness :
    ((fun _ : Nat => (some 3 : Option Int)) 0 ≠ none ∨ (5 : Nat) ≤ (fun _ : Nat => 0) 0) ∧
    ∃ fuel r, collectDynamic (fun _ => some 3) (fun _ => 0) (fun _ => [])
        (fun _ _ => []) 5 7 fuel = some r ∧
      (r.timedOut = true → r.exitCode = -9 ∧
        ∃ j, (5 : Nat) ≤ (fun _ : Nat => 0) j ∧ ∀ l ≤ j, (fun _ : Nat => (some 3 : Option Int)) l = none) ∧
      (r.timedOut = false → ∃ j, (fun _ : Nat => (some 3 : Option Int)) j = some r.exitCode ∧
        ∀ l < j, (fun _ : Nat => (some 3 : Option Int)) l = none ∧ (fun _ : Nat => 0) l < 5) :=
  ⟨Or.inl (by simp),
    collectDynamic_timeout_spec (fun _ => some 3) (fun _ => 0) (fun _ => [])
      (fun _ _ => []) 5 7 0 (Or.inl (by simp))⟩

/-- The accumulated pid set only grows along the supervision loop. -/
theorem dynLoopFuel_seenPids_mono (poll : Nat → Option Int) (clock : Nat → Nat)
    (tables : Nat → List ProcRecord) (net : Nat → List Nat → List String)
    (timeoutS : Nat) (rootPid : Nat) :
    ∀ fuel i st t rc st2,
      dynLoopFuel poll clock tables net timeoutS rootPid fuel i st = some (t, rc, st2) →
      st.seenPids ⊆ st2.seenPids := by
  intro fuel
  induction fuel with
  | zero => intro i st t rc st2 h; simp [dynLoopFuel] at h
  | succ fuel ih =>
    intro i st t rc st2 h
    rcases hp : poll i with _ | rc0
    · simp only [dynLoopFuel, hp] at h
      by_cases hT : timeoutS ≤ clock i
      · rw [if_pos hT] at h
        injection h with h
        injection h with h1 h
        injection h with h2 h3
        rw [← h3]
        intro a ha
        exact mem_unionSet.mpr (Or.inl ha)
      · rw [if_neg hT] at h
        have := ih (i + 1) _ t rc st2 h
        intro a ha
        exact this (mem_unionSet.mpr (Or.inl ha))
    · simp only [dynLoopFuel, hp] at h
      injection h with h
      injection h with h1 h
      injection h with h2 h3
      rw [← h3]
      exact fun a ha => ha

/-- If at least one poll tick executes (the child is still running at the
first poll), the root pid ends up in the accumulated pid set. -/
theorem dynLoopFuel_root_seen (poll : Nat → Option Int) (clock : Nat → Nat)
    (tables : Nat → List ProcRecord) (net : Nat → List Nat → List String)
    (timeoutS : Nat) (rootPid : Nat) :
    ∀ fuel i st t rc st2,
      dynLoopFuel poll clock tables net timeoutS rootPid fuel i st = some (t, rc, st2) →
      poll i = none → rootPid ∈ st2.seenPids := by
  intro fuel
  match fuel with
  | 0 => intro i st t rc st2 h; simp [dynLoopFuel] at h
  | fuel + 1 =>
    intro i st t rc st2 h hp
    simp only [dynLoopFuel, hp] at h
    have hroot1 : rootPid ∈ unionSet st.seenPids (tickPids rootPid (tables i)) :=
      mem_unionSet.mpr (Or.inr (root_mem_tickPids rootPid (tables i)))
    by_cases hT : timeoutS ≤ clock i
    · rw [if_pos hT] at h
      injection h with h
      injection h with h1 h
      injection h with h2 h3
      rw [← h3]
      exact hroot1
    · rw [if_neg hT] at h
      exact dynLoopFuel_seenPids_mono poll clock tables net timeoutS rootPid
        fuel (i + 1) _ t rc st2 h hroot1

/-- C10 counterexample: a child that has already exited at the first poll
(`proc.poll()` is non-`None` immediately), so the `while` body never runs:
the completed run's `pids_observed` is empty and does not contain the root
pid 42, refuting the cumulative part of the claim as stated. -/
theorem collectDynamic_pids_empty_run :
    collectDynamic (fun _ => some 0) (fun _ => 0) (fun _ => []) (fun _ _ => [])
        5 42 1 =
      some { timedOut := false, exitCode := 0, pidsObserved := []
             processesObserved := [], networkEndpointsObserved := [] } ∧
    (42 : Nat) ∉ ([] : List Nat) := by
  exact ⟨rfl, by simp⟩

/-- C10 (amended): on every poll tick the pid set attributed to the tick
contains the root pid — when the process table cannot be read or lacks the
root pid the set is exactly `[root pid]` — and hence for every completed
run in which at least one poll tick executes (the child was still running
at the first poll), the observed pid set contains the root pid.  (If the
child exits before the first poll, the loop body never runs and the
observed pid set is empty.) -/
theorem tickPids_and_observed_root (rootPid : Nat) :
    (∀ table : List ProcRecord, rootPid ∈ tickPids rootPid table ∧
      (rootPid ∉ table.map (·.pid) → tickPids rootPid table = [rootPid])) ∧
    ∀ (poll : Nat → Option Int) (clock : Nat → Nat)
      (tables : Nat → List ProcRecord) (net : Nat → List Nat → List String)
      (timeoutS fuel : Nat) (r : DynResult),
      collectDynamic poll clock tables net timeoutS rootPid fuel = some r →
      poll 0 = none → rootPid ∈ r.pidsObserved := by
  constructor
  · intro table
    refine ⟨root_mem_tickPids rootPid table, ?_⟩
    intro habs
    unfold tickPids
    rw [if_neg habs]
  · intro poll clock tables net timeoutS fuel r hr hp
    unfold collectDynamic at hr
    rcases hloop : dynLoopFuel poll clock tables net timeoutS rootPid fuel 0
        ⟨[], [], []⟩ with _ | ⟨t, rc, st⟩
    · rw [hloop] at hr; cases hr
    · rw [hloop] at hr
      injection hr with hr
      have := dynLoopFuel_root_seen poll clock tables net timeoutS rootPid
        fuel 0 ⟨[], [], []⟩ t rc st hloop hp
      rw [← hr]
      exact mem_sortList.mpr this

/-- C10 witness: a concrete run with one executed tick over an empty
process table (child still running at the first poll, budget already
reached); root pid 42 appears in `pids_observed`. -/
theorem tickPids_and_observed_root_witness :
    (collectDynamic (fun _ => none) (fun _ => 10) (fun _ => []) (fun _ _ => [])
        5 42 1 = some ⟨true, -9, [42], [], []⟩ ∧
      (fun _ : Nat => (none : Option Int)) 0 = none) ∧
    (42 : Nat) ∈ (DynResult.mk true (-9) [42] [] []).pidsObserved :=
  ⟨⟨rfl, rfl⟩,
    (tickPids_and_observed_root 42).2 (fun _ => none) (fun _ => 10)
      (fun _ => []) (fun _ _ => []) 5 1 ⟨true, -9, [42], [], []⟩ rfl rfl⟩

/-! ## Subcommand extraction (`_normalize_cmd_token`, `_parse_subcommands`)

Character-level translation of the help-text heuristics.  Python's
`str.strip` family becomes `stripChars`, the two anchored section regexes
become explicit matchers (`commandsHeader` is case-insensitive, matching
`Available\s+Commands|Commands|Subcommands` then `\s*:`;
`sectionTerminator` is case-sensitive, matching one of the literal
alternatives then `\s*:`). -/

def isSpaceB (c : Char) : Bool :=
  c == ' ' || c == '\t' || c == '\n' || c == '\r' ||
    c == Char.ofNat 11 || c == Char.ofNat 12

/-- Strip characters satisfying `p` from both ends (`str.strip(chars)`). -/
def stripChars (p : Char → Bool) (cs : List Char) : List Char :=
  ((cs.dropWhile p).reverse.dropWhile p).reverse

def isQuoteB (c : Char) : Bool :=
  c == Char.ofNat 96 || c == '"' || c == Char.ofNat 39

def isBracketB (c : Char) : Bool :=
  c == '[' || c == ']' || c == '<' || c == '>' || c == '(' || c == ')' ||
    c == Char.ofNat 123 || c == Char.ofNat 125

def isAlnumB (c : Char) : Bool :=
  (decide ('a' ≤ c) && decide (c ≤ 'z')) ||
  (decide ('A' ≤ c) && decide (c ≤ 'Z')) ||
  (decide ('0' ≤ c) && decide (c ≤ '9'))

def isIdentCharB (c : Char) : Bool :=
  isAlnumB c || c == '.' || c == '_' || c == ':' || c == '-'

/-- `^[a-zA-Z0-9][a-zA-Z0-9._:-]*$`. -/
def isIdentToken : List Char → Bool
  | [] => false
  | c :: cs => isAlnumB c && cs.all isIdentCharB

/-- Translation of `_normalize_cmd_token`. -/
def normalizeCmdToken (tok : List Char) : Option (List Char) :=
  let t1 := stripChars isQuoteB (stripChars isSpaceB tok)
  let t := stripChars isBracketB t1
  if t.isEmpty then none
  else if t.head? = some '-' then none
  else if (t.map Char.toLower) ∈
      ["help".data, "commands".data, "command".data, "flags".data,
       "options".data, "usage".data] then none
  else if !isIdentToken t then none
  else some t

/-- Consume a literal case-insensitively, returning the rest. -/
def matchLitCI : List Char → List Char → Option (List Char)
  | [], rest => some rest
  | _ :: _, [] => none
  | l :: ls, c :: rest =>
    if l.toLower == c.toLower then matchLitCI ls rest else none

/-- Consume a literal case-sensitively, returning the rest. -/
def matchLitCS : List Char → List Char → Option (List Char)
  | [], rest => some rest
  | _ :: _, [] => none
  | l :: ls, c :: rest => if l == c then matchLitCS ls rest else none

/-- After a matched alternative: `\s*:` must follow. -/
def colonAfterWS (o : Option (List Char)) : Bool :=
  match o with
  | some r =>
    match r.dropWhile isSpaceB with
    | c :: _ => c == ':'
    | [] => false
  | none => false

/-- `re.match(r"^\s*(Available\s+Commands|Commands|Subcommands)\s*:", ln, re.IGNORECASE)`. -/
def commandsHeader (line : List Char) : Bool :=
  let s := line.dropWhile isSpaceB
  let availAlt : Option (List Char) :=
    match matchLitCI "Available".data s with
    | some (c :: rest) =>
      if isSpaceB c then matchLitCI "Commands".data ((c :: rest).dropWhile isSpaceB)
      else none
    | _ => none
  colonAfterWS availAlt || colonAfterWS (matchLitCI "Commands".data s) ||
    colonAfterWS (matchLitCI "Subcommands".data s)

/-- `re.match(r"^\s*(Flags|Global Flags|Options|Arguments|Examples|Environment|Usage|USAGE)\s*:", ln)`
(no IGNORECASE flag: case-sensitive). -/
def sectionTerminator (line : List Char) : Bool :=
  let s := line.dropWhile isSpaceB
  ["Flags", "Global Flags", "Options", "Arguments", "Examples",
   "Environment", "Usage", "USAGE"].any
    (fun lit => colonAfterWS (matchLitCS lit.data s))

/-- First whitespace-delimited token (`ln.strip().split()[0]`, empty when
the line is blank). -/
def firstToken (line : List Char) : List Char :=
  (line.dropWhile isSpaceB).takeWhile (fun c => !isSpaceB c)

/-- The line scan of `_parse_subcommands` over the split lines, carrying
the `in_commands` flag. -/
def parseSubcommandLines : List (List Char) → Bool → List (List Char)
  | [], _ => []
  | ln :: rest, inCommands =>
    if commandsHeader ln then parseSubcommandLines rest true
    else if !inCommands then parseSubcommandLines rest false
    else if (ln.dropWhile isSpaceB).isEmpty then parseSubcommandLines rest false
    else if sectionTerminator ln then parseSubcommandLines rest false
    else
      match normalizeCmdToken (firstToken ln) with
      | some norm => norm :: parseSubcommandLines rest true
      | none => parseSubcommandLines rest true

/-- `str.splitlines` for newline-separated text. -/
def splitLines (s : String) : List String :=
  let parts := s.splitOn "\n"
  if parts.getLast? = some "" then parts.dropLast else parts

/-- Translation of `_parse_subcommands`: scan the section body lines and
deduplicate keeping first occurrences. -/
def parseSubcommands (helpText : String) : List String :=
  ((parseSubcommandLines ((splitLines helpText).map String.data) false).foldl
      insertSet []).map (fun cs => String.mk cs)

/-! ## CommandSurfaceDiscoverer (`_capture_command_surface`)

Breadth-first traversal over command paths with a FIFO queue and a
visited set.  `clock i` models the `time.time() - started` reading at the
top of the `i`-th loop iteration; the per-probe timeout lives inside the
`run` oracle.  Section records keep the command path as a token list (the
source stores its space-joined rendering, which is injective on
normalized tokens since they contain no whitespace). -/

structure SurfaceSection where
  path : List String
  probe : String
  lineCount : Nat
  deriving DecidableEq, Repr

structure SurfaceResult where
  commandPaths : List String
  topLevelCommands : List String
  helpSections : List SurfaceSection
  probeKinds : List String
  maxDepth : Nat
  timedOut : Bool
  deriving DecidableEq, Repr

structure SurfaceState where
  tick : Nat
  queue : List (List String)
  visited : List (List String)
  commands : List String
  sections : List SurfaceSection
  probes : List String
  deriving Repr

/-- `c.split()`: whitespace split with empty pieces dropped. -/
def wordsOf (c : String) : List String :=
  (c.split isSpaceB).filter (fun w => w ≠ "")

/-- Assembly of the returned surface record: sorted command list, the set
of first tokens as top-level commands, the maximum split depth, and
`timed_out = bool(queue)` at loop exit. -/
def mkSurfaceResult (commands : List String) (sections : List SurfaceSection)
    (probes : List String) (timedOut : Bool) : SurfaceResult :=
  let commandList := sortList commands
  { commandPaths := commandList
    topLevelCommands := sortList
      (((commandList.filter (fun c => c ≠ "")).map
          (fun c => (wordsOf c).headD "")).dedup)
    helpSections := sections
    probeKinds := sortList probes
    maxDepth := (commandList.map (fun c => (wordsOf c).length)).foldr max 0
    timedOut := timedOut }

/-- One iteration of the `while queue` loop of `_capture_command_surface`:
either the traversal finishes with a result, or the state advances. -/
def surfaceStep (run : List String → String) (maxD totalT : Nat)
    (clock : Nat → Nat) (s : SurfaceState) : SurfaceResult ⊕ SurfaceState :=
  match s.queue with
  | [] => Sum.inl (mkSurfaceResult s.commands s.sections s.probes false)
  | path :: rest =>
    if totalT < clock s.tick then
      Sum.inl (mkSurfaceResult s.commands s.sections s.probes true)
    else if path ∈ s.visited then
      Sum.inr { s with tick := s.tick + 1, queue := rest }
    else
      let visited1 := s.visited ++ [path]
      let res := probeHelp run path
      if !res.1 then
        Sum.inr { s with tick := s.tick + 1, queue := rest, visited := visited1 }
      else
        let probes1 := insertSet s.probes res.2.1
        let sections1 := s.sections ++
          [⟨path, res.2.1, (splitLines res.2.2).length⟩]
        let commands1 :=
          if path ≠ [] then insertSet s.commands (String.intercalate " " path)
          else s.commands
        if maxD ≤ path.length then
          Sum.inr { tick := s.tick + 1, queue := rest, visited := visited1
                    commands := commands1, sections := sections1, probes := probes1 }
        else
          Sum.inr { tick := s.tick + 1
                    queue := rest ++ ((parseSubcommands res.2.2).map
                      (fun sub => path ++ [sub])).filter
                        (fun child => decide (child ∉ visited1))
                    visited := visited1, commands := commands1
                    sections := sections1, probes := probes1 }

/-- The traversal loop with explicit fuel. -/
def surfaceFuel (run : List String → String) (maxD totalT : Nat)
    (clock : Nat → Nat) : Nat → SurfaceState → Option SurfaceResult
  | 0, _ => none
  | n + 1, s =>
    match surfaceStep run maxD totalT clock s with
    | Sum.inl r => some r
    | Sum.inr s1 => surfaceFuel run maxD totalT clock n s1

/-- Initial state: queue holds the root (empty) path, everything else empty. -/
def initSurfaceState : SurfaceState := ⟨0, [[]], [], [], [], []⟩

/-- The children a successful probe of `path` contributes. -/
def childTokens (run : List String → String) (path : List String) : List String :=
  let res := probeHelp run path
  if res.1 then parseSubcommands res.2.2 else []

/-- Weight of a path: one plus the weights of all extensions reachable
below the depth cap — an upper bound on the loop iterations the path can
cause.  Structural recursion on the remaining depth. -/
def weightAux (run : List String → String) (maxD : Nat) :
    Nat → List String → Nat
  | 0, _ => 1
  | d + 1, path =>
    if path.length < maxD then
      1 + ((childTokens run path).map
        (fun sub => weightAux run maxD d (path ++ [sub]))).sum
    else 1

def pathWeight (run : List String → String) (maxD : Nat)
    (path : List String) : Nat :=
  weightAux run maxD (maxD - path.length) path

def queueWeight (run : List String → String) (maxD : Nat)
    (queue : List (List String)) : Nat :=
  (queue.map (pathWeight run maxD)).sum

theorem weightAux_pos (run : List String → String) (maxD d : Nat)
    (path : List String) : 1 ≤ weightAux run maxD d path := by
  cases d with
  | zero => simp [weightAux]
  | succ d =>
    unfold weightAux
    split <;> omega

theorem pathWeight_children (run : List String → String) (maxD : Nat)
    (path : List String) (hlt : path.length < maxD) :
    pathWeight run maxD path =
      1 + ((childTokens run path).map
        (fun sub => pathWeight run maxD (path ++ [sub]))).sum := by
  have hstep : ∀ sub : String,
      weightAux run maxD (maxD - path.length - 1) (path ++ [sub]) =
        pathWeight run maxD (path ++ [sub]) := by
    intro sub
    have h : maxD - (path ++ [sub]).length = maxD - path.length - 1 := by
      simp only [List.length_append, List.length_cons, List.length_nil]
      omega
    unfold pathWeight
    rw [h]
  calc pathWeight run maxD path
      = weightAux run maxD ((maxD - path.length - 1) + 1) path := by
        unfold pathWeight
        congr 1
        omega
    _ = if path.length < maxD then
          1 + ((childTokens run path).map
            (fun sub => weightAux run maxD (maxD - path.length - 1) (path ++ [sub]))).sum
        else 1 := rfl
    _ = 1 + ((childTokens run path).map
          (fun sub => weightAux run maxD (maxD - path.length - 1) (path ++ [sub]))).sum := by
        rw [if_pos hlt]
    _ = 1 + ((childTokens run path).map
          (fun sub => pathWeight run maxD (path ++ [sub]))).sum := by
        congr 1
        apply congrArg
        exact List.map_congr_left (fun sub _ => hstep sub)

theorem sum_map_filter_le {α : Type} (l : List α) (p : α → Bool) (f : α → Nat) :
    ((l.filter p).map f).sum ≤ (l.map f).sum := by
  induction l with
  | nil => simp
  | cons a rest ih =>
    by_cases h : p a
    · rw [List.filter_cons_of_pos h]
      simp only [List.map_cons, List.sum_cons]
      omega
    · rw [List.filter_cons_of_neg (by simpa using h)]
      simp only [List.map_cons, List.sum_cons]
      omega

/-- Every advancing iteration strictly decreases the queue weight: a
dequeued path contributes its own weight, and the children it may push
back are bounded by that weight minus one. -/
theorem surfaceStep_decrease (run : List String → String) (maxD totalT : Nat)
    (clock : Nat → Nat) (s s1 : SurfaceState)
    (h : surfaceStep run maxD totalT clock s = Sum.inr s1) :
    queueWeight run maxD s1.queue < queueWeight run maxD s.queue := by
  rcases hq : s.queue with _ | ⟨path, rest⟩
  · simp [surfaceStep, hq] at h
  · have hsplit : queueWeight run maxD (path :: rest) =
        pathWeight run maxD path + queueWeight run maxD rest := by
      simp [queueWeight]
    have hpos : 1 ≤ pathWeight run maxD path :=
      weightAux_pos run maxD (maxD - path.length) path
    simp only [surfaceStep, hq] at h
    by_cases hT : totalT < clock s.tick
    · rw [if_pos hT] at h; cases h
    · rw [if_neg hT] at h
      by_cases hv : path ∈ s.visited
      · rw [if_pos hv] at h
        injection h with h
        subst h
        show queueWeight run maxD rest < _
        rw [hsplit]
        omega
      · rw [if_neg hv] at h
        rcases hres : probeHelp run path with ⟨ok, pname, ptxt⟩
        rw [hres] at h
        rcases ok with _ | _
        · simp only [Bool.not_false, if_pos] at h
          injection h with h
          subst h
          show queueWeight run maxD rest < _
          rw [hsplit]
          omega
        · simp only [Bool.not_true, Bool.false_eq_true, if_neg, if_false,
            not_false_eq_true] at h
          by_cases hd : maxD ≤ path.length
          · rw [if_pos hd] at h
            injection h with h
            subst h
            show queueWeight run maxD rest < _
            rw [hsplit]
            omega
          · rw [if_neg hd] at h
            injection h with h
            subst h
            show queueWeight run maxD (rest ++ _) < _
            rw [hsplit]
            rw [queueWeight, List.map_append, List.sum_append]
            have hchild : childTokens run path = parseSubcommands ptxt := by
              simp [childTokens, hres]
            have hle : ((((parseSubcommands ptxt).map (fun sub => path ++ [sub])).filter
                  (fun child => decide (child ∉ s.visited ++ [path]))).map
                    (pathWeight run maxD)).sum ≤
                (((parseSubcommands ptxt).map (fun sub => path ++ [sub])).map
                  (pathWeight run maxD)).sum :=
              sum_map_filter_le _ _ _
            have heq : (((parseSubcommands ptxt).map (fun sub => path ++ [sub])).map
                (pathWeight run maxD)).sum =
                ((parseSubcommands ptxt).map
                  (fun sub => pathWeight run maxD (path ++ [sub]))).sum := by
              rw [List.map_map]
              rfl
            have hw := pathWeight_children run maxD path (by omega)
            rw [hchild] at hw
            have : queueWeight run maxD rest = (rest.map (pathWeight run maxD)).sum := rfl
            omega

/-- The two ways the loop finishes: queue exhausted (`timed_out = false`)
or total budget exceeded with work pending (`timed_out = bool(queue) = true`). -/
theorem surfaceStep_inl (run : List String → String) (maxD totalT : Nat)
    (clock : Nat → Nat) (s : SurfaceState) (r : SurfaceResult)
    (h : surfaceStep run maxD totalT clock s = Sum.inl r) :
    (s.queue = [] ∧ r = mkSurfaceResult s.commands s.sections s.probes false) ∨
    (totalT < clock s.tick ∧ s.queue ≠ [] ∧
      r = mkSurfaceResult s.commands s.sections s.probes true) := by
  rcases hq : s.queue with _ | ⟨path, rest⟩
  · simp only [surfaceStep, hq] at h
    injection h with h
    exact Or.inl ⟨rfl, h.symm⟩
  · simp only [surfaceStep, hq] at h
    by_cases hT : totalT < clock s.tick
    · rw [if_pos hT] at h
      injection h with h
      exact Or.inr ⟨hT, by simp, h.symm⟩
    · rw [if_neg hT] at h
      by_cases hv : path ∈ s.visited
      · rw [if_pos hv] at h; cases h
      · rw [if_neg hv] at h
        rcases hres : probeHelp run path with ⟨ok, pname, ptxt⟩
        rw [hres] at h
        rcases ok with _ | _
        · simp only [Bool.not_false, if_pos] at h; cases h
        · simp only [Bool.not_true, Bool.false_eq_true, if_neg,
            not_false_eq_true] at h
          by_cases hd : maxD ≤ path.length
          · rw [if_pos hd] at h; cases h
          · rw [if_neg hd] at h; cases h

/-- How an advancing iteration changes the visited set and the section
list: visited only grows, and a section is appended only for a path that
was not yet visited and is visited afterwards. -/
theorem surfaceStep_inr_cases (run : List String → String) (maxD totalT : Nat)
    (clock : Nat → Nat) (s s1 : SurfaceState)
    (h : surfaceStep run maxD totalT clock s = Sum.inr s1) :
    s.visited ⊆ s1.visited ∧
    (s1.sections = s.sections ∨
      ∃ path pname lc, s1.sections = s.sections ++ [⟨path, pname, lc⟩] ∧
        path ∉ s.visited ∧ path ∈ s1.visited) := by
  rcases hq : s.queue with _ | ⟨path, rest⟩
  · simp only [surfaceStep, hq] at h; cases h
  · simp only [surfaceStep, hq] at h
    by_cases hT : totalT < clock s.tick
    · rw [if_pos hT] at h; cases h
    · rw [if_neg hT] at h
      by_cases hv : path ∈ s.visited
      · rw [if_pos hv] at h
        injection h with h
        subst h
        exact ⟨fun a ha => ha, Or.inl rfl⟩
      · rw [if_neg hv] at h
        rcases hres : probeHelp run path with ⟨ok, pname, ptxt⟩
        rw [hres] at h
        rcases ok with _ | _
        · simp only [Bool.not_false, if_pos] at h
          injection h with h
          subst h
          exact ⟨List.subset_append_left _ _, Or.inl rfl⟩
        · simp only [Bool.not_true, Bool.false_eq_true, if_neg,
            not_false_eq_true] at h
          by_cases hd : maxD ≤ path.length
          · rw [if_pos hd] at h
            injection h with h
            subst h
            refine ⟨List.subset_append_left _ _, Or.inr ?_⟩
            exact ⟨path, pname, (splitLines ptxt).length, rfl, hv, by simp⟩
          · rw [if_neg hd] at h
            injection h with h
            subst h
            refine ⟨List.subset_append_left _ _, Or.inr ?_⟩
            exact ⟨path, pname, (splitLines ptxt).length, rfl, hv, by simp⟩

/-- Invariant: section paths are distinct and all already visited. -/
def sectInv (s : SurfaceState) : Prop :=
  (s.sections.map (·.path)).Nodup ∧
    ∀ p ∈ s.sections.map (·.path), p ∈ s.visited

theorem surfaceStep_preserves_sectInv (run : List String → String)
    (maxD totalT : Nat) (clock : Nat → Nat) (s s1 : SurfaceState)
    (h : surfaceStep run maxD totalT clock s = Sum.inr s1) (hi : sectInv s) :
    sectInv s1 := by
  rcases surfaceStep_inr_cases run maxD totalT clock s s1 h with
    ⟨hsub, hsec | ⟨path, pname, lc, hsec, hnp, hp⟩⟩
  · exact ⟨hsec ▸ hi.1, fun p hp2 => hsub (hi.2 p (hsec ▸ hp2))⟩
  · constructor
    · rw [hsec, List.map_append]
      refine List.Nodup.append hi.1 (by simp) ?_
      intro a ha hb
      simp only [List.map_cons, List.map_nil, List.mem_singleton] at hb
      subst hb
      exact hnp (hi.2 a ha)
    · intro p hp2
      rw [hsec, List.map_append] at hp2
      rcases List.mem_append.mp hp2 with hold | hnew
      · exact hsub (hi.2 p hold)
      · simp only [List.map_cons, List.map_nil, List.mem_singleton] at hnew
        subst hnew
        exact hp

theorem surfaceFuel_terminates (run : List String → String) (maxD totalT : Nat)
    (clock : Nat → Nat) :
    ∀ n s, queueWeight run maxD s.queue < n →
      ∃ r, surfaceFuel run maxD totalT clock n s = some r := by
  intro n
  induction n with
  | zero => intro s h; omega
  | succ n ih =>
    intro s h
    rcases hstep : surfaceStep run maxD totalT clock s with r | s1
    · exact ⟨r, by simp [surfaceFuel, hstep]⟩
    · have hlt := surfaceStep_decrease run maxD totalT clock s s1 hstep
      rcases ih s1 (by omega) with ⟨r, hr⟩
      exact ⟨r, by simp [surfaceFuel, hstep, hr]⟩

theorem surfaceFuel_nodup (run : List String → String) (maxD totalT : Nat)
    (clock : Nat → Nat) :
    ∀ n s r, surfaceFuel run maxD totalT clock n s = some r → sectInv s →
      (r.helpSections.map (·.path)).Nodup := by
  intro n
  induction n with
  | zero => intro s r h _; simp [surfaceFuel] at h
  | succ n ih =>
    intro s r h hi
    rcases hstep : surfaceStep run maxD totalT clock s with r0 | s1
    · simp only [surfaceFuel, hstep] at h
      injection h with h
      subst h
      rcases surfaceStep_inl run maxD totalT clock s r0 hstep with
        ⟨_, hr⟩ | ⟨_, _, hr⟩ <;> (subst hr; exact hi.1)
    · simp only [surfaceFuel, hstep] at h
      exact ih s1 r h
        (surfaceStep_preserves_sectInv run maxD totalT clock s s1 hstep hi)

theorem surfaceFuel_timeout_clock (run : List String → String)
    (maxD totalT : Nat) (clock : Nat → Nat) :
    ∀ n s r, surfaceFuel run maxD totalT clock n s = some r →
      r.timedOut = true → ∃ i, totalT < clock i := by
  intro n
  induction n with
  | zero => intro s r h _; simp [surfaceFuel] at h
  | succ n ih =>
    intro s r h ht
    rcases hstep : surfaceStep run maxD totalT clock s with r0 | s1
    · simp only [surfaceFuel, hstep] at h
      injection h with h
      subst h
      rcases surfaceStep_inl run maxD totalT clock s r0 hstep with
        ⟨_, hr⟩ | ⟨hT, _, hr⟩
      · subst hr; cases ht
      · exact ⟨s.tick, hT⟩
    · simp only [surfaceFuel, hstep] at h
      exact ih s1 r h ht

theorem surfaceFuel_within_budget (run : List String → String)
    (maxD totalT : Nat) (clock : Nat → Nat) (hcl : ∀ i, clock i ≤ totalT) :
    ∀ n s r, surfaceFuel run maxD totalT clock n s = some r →
      r.timedOut = false := by
  intro n
  induction n with
  | zero => intro s r h; simp [surfaceFuel] at h
  | succ n ih =>
    intro s r h
    rcases hstep : surfaceStep run maxD totalT clock s with r0 | s1
    · simp only [surfaceFuel, hstep] at h
      injection h with h
      subst h
      rcases surfaceStep_inl run maxD totalT clock s r0 hstep with
        ⟨_, hr⟩ | ⟨hT, _, _⟩
      · subst hr; rfl
      · exact absurd hT (by have := hcl s.tick; omega)
    · simp only [surfaceFuel, hstep] at h
      exact ih s1 r h

/-- C6: For every probe oracle, depth cap, time budget and clock
behaviour — including help outputs that advertise a command as its own
subcommand and thereby produce cycles — the breadth-first discovery
traversal terminates: fuel one past the (computable) weight of the
initial queue suffices to produce a result.  Moreover, for any completed
traversal, each command path was probed at most once (the recorded help
sections have pairwise-distinct paths), `timed_out = true` only when the
elapsed clock exceeded the budget at some iteration, and if the clock
never exceeds the budget the traversal ends by exhausting the queue with
`timed_out = false` — in either case a (partial) surface is returned. -/
theorem captureSurface_terminates_spec (run : List String → String)
    (maxD totalT : Nat) (clock : Nat → Nat) :
    (∃ r, surfaceFuel run maxD totalT clock
        (queueWeight run maxD initSurfaceState.queue + 1) initSurfaceState = some r) ∧
    (∀ n r, surfaceFuel run maxD totalT clock n initSurfaceState = some r →
      ((r.helpSections.map (·.path)).Nodup ∧
       (r.timedOut = true → ∃ i, totalT < clock i) ∧
       ((∀ i, clock i ≤ totalT) → r.timedOut = false))) := by
  constructor
  · exact surfaceFuel_terminates run maxD totalT clock _ initSurfaceState
      (Nat.lt_succ_self _)
  · intro n r h
    refine ⟨?_, ?_, ?_⟩
    · exact surfaceFuel_nodup run maxD totalT clock n initSurfaceState r h
        ⟨by simp [initSurfaceState], by simp [initSurfaceState]⟩
    · exact surfaceFuel_timeout_clock run maxD totalT clock n initSurfaceState r h
    · intro hcl
      exact surfaceFuel_within_budget run maxD totalT clock hcl n initSurfaceState r h

/-- C6 witness: a binary with no help output at all, depth cap 2, budget
100, a clock pinned at 0; the traversal finishes with fuel 2 and reports
`timed_out = false`. -/
theorem captureSurface_terminates_spec_witness :
    (surfaceFuel (fun _ => "") 2 100 (fun _ => 0) 2 initSurfaceState =
      some (mkSurfaceResult [] [] [] false)) ∧
    (((mkSurfaceResult [] [] [] false).helpSections.map (·.path)).Nodup ∧
     ((mkSurfaceResult [] [] [] false).timedOut = true → ∃ i, 100 < (fun _ : Nat => 0) i) ∧
     ((∀ i : Nat, (fun _ : Nat => 0) i ≤ 100) →
        (mkSurfaceResult [] [] [] false).timedOut = false)) :=
  ⟨rfl, (captureSurface_terminates_spec (fun _ => "") 2 100 (fun _ => 0)).2 2
    (mkSurfaceResult [] [] [] false) rfl⟩

/-! ## ContractBuilder (`_collect_contract`)

Structural assembly of the contract record (lines 528-546) and its
persisted rendering `json.dumps(contract, indent=2, sort_keys=True) + "\n"`
(via `_write_json`).  The renderer spells out the fixed schema with keys
in sorted order; ASCII inputs are assumed (matching the source's own
outputs), so escaping only needs to handle backslash and quote. -/

structure StaticFacts where
  sha256 : Option String
  runtimeGuess : List String
  deriving DecidableEq, Repr

/-- The dynamic-run summary consumed by the builder. -/
structure DynSummaryIn where
  exitCode : Option Int
  timedOut : Option Bool
  endpointCount : Nat
  fileCreates : Nat
  deriving DecidableEq, Repr

structure ContractOut where
  binary : String
  binarySha256 : Option String
  commandPaths : List String
  dynExitCode : Option Int
  dynNetworkEndpointCount : Nat
  dynSandboxFileCreates : Nat
  dynTimedOut : Option Bool
  generatedAt : String
  helpProbeKinds : List String
  helpSectionCount : Nat
  maxDepth : Nat
  runtimeGuess : List String
  schemaVersion : Nat
  topLevelCommands : List String
  deriving DecidableEq, Repr

/-- Translation of the contract-dict construction in `_collect_contract`
(`generated_at` is the `_now_iso()` reading passed in as `now`). -/
def buildContract (binaryPath now : String) (static : StaticFacts)
    (surface : SurfaceResult) (dyn : DynSummaryIn) : ContractOut :=
  { binary := binaryPath
    binarySha256 := static.sha256
    commandPaths := surface.commandPaths
    dynExitCode := dyn.exitCode
    dynNetworkEndpointCount := dyn.endpointCount
    dynSandboxFileCreates := dyn.fileCreates
    dynTimedOut := dyn.timedOut
    generatedAt := now
    helpProbeKinds := surface.probeKinds
    helpSectionCount := surface.helpSections.length
    maxDepth := surface.maxDepth
    runtimeGuess := static.runtimeGuess
    schemaVersion := 1
    topLevelCommands := surface.topLevelCommands }

def jsonEscape (s : String) : String :=
  s.data.foldr (fun c acc =>
    if c = '\\' then "\\\\" ++ acc
    else if c = '"' then "\\\"" ++ acc
    else String.singleton c ++ acc) ""

def jsonStr (s : String) : String := "\"" ++ jsonEscape s ++ "\""

def jsonOptStr : Option String → String
  | none => "null"
  | some s => jsonStr s

def jsonOptInt : Option Int → String
  | none => "null"
  | some i => toString i

def jsonOptBool : Option Bool → String
  | none => "null"
  | some true => "true"
  | some false => "false"

/-- A list of strings at nesting depth one (items indented four spaces,
closing bracket two), as `json.dumps(indent=2)` prints it. -/
def jsonStrList (l : List String) : String :=
  if l.isEmpty then "[]"
  else "[\n" ++ String.intercalate ",\n" (l.map (fun s => "    " ++ jsonStr s)) ++
    "\n  ]"

/-- The persisted `contract.json` bytes for the fixed contract schema:
`json.dumps(data, indent=2, sort_keys=True) + "\n"`. -/
def renderContract (c : ContractOut) : String :=
  "\x7b\n" ++
  "  " ++ jsonStr "binary" ++ ": " ++ jsonStr c.binary ++ ",\n" ++
  "  " ++ jsonStr "binary_sha256" ++ ": " ++ jsonOptStr c.binarySha256 ++ ",\n" ++
  "  " ++ jsonStr "command_paths" ++ ": " ++ jsonStrList c.commandPaths ++ ",\n" ++
  "  " ++ jsonStr "dynamic_summary" ++ ": \x7b\n" ++
  "    " ++ jsonStr "exit_code" ++ ": " ++ jsonOptInt c.dynExitCode ++ ",\n" ++
  "    " ++ jsonStr "network_endpoint_count" ++ ": " ++
    toString c.dynNetworkEndpointCount ++ ",\n" ++
  "    " ++ jsonStr "sandbox_file_creates" ++ ": " ++
    toString c.dynSandboxFileCreates ++ ",\n" ++
  "    " ++ jsonStr "timed_out" ++ ": " ++ jsonOptBool c.dynTimedOut ++ "\n" ++
  "  \x7d,\n" ++
  "  " ++ jsonStr "generated_at" ++ ": " ++ jsonStr c.generatedAt ++ ",\n" ++
  "  " ++ jsonStr "help_probe_kinds" ++ ": " ++ jsonStrList c.helpProbeKinds ++ ",\n" ++
  "  " ++ jsonStr "help_section_count" ++ ": " ++ toString c.helpSectionCount ++ ",\n" ++
  "  " ++ jsonStr "max_depth" ++ ": " ++ toString c.maxDepth ++ ",\n" ++
  "  " ++ jsonStr "runtime_guess" ++ ": " ++ jsonStrList c.runtimeGuess ++ ",\n" ++
  "  " ++ jsonStr "schema_version" ++ ": " ++ toString c.schemaVersion ++ ",\n" ++
  "  " ++ jsonStr "top_level_commands" ++ ": " ++ jsonStrList c.topLevelCommands ++
  "\n\x7d\n"

def c8Static : StaticFacts := ⟨some "abc123", ["Go"]⟩

def c8Surface : SurfaceResult := ⟨[], [], [], [], 0, false⟩

def c8Dyn : DynSummaryIn := ⟨some 0, some false, 0, 0⟩

set_option maxRecDepth 4096 in
/-- C8 counterexample: two builds with identical static facts, command
surface and dynamic summary, performed at different wall-clock times,
produce different contract bytes — the contract embeds `generated_at`
(`_now_iso()`), so the output is not byte-identical across repeated
builds. -/
theorem buildContract_not_time_independent :
    renderContract (buildContract "/bin/tool" "2024-01-01T00:00:00Z"
        c8Static c8Surface c8Dyn) ≠
      renderContract (buildContract "/bin/tool" "2024-01-01T00:00:01Z"
        c8Static c8Surface c8Dyn) := by
  decide

/-- C8 (amended): the contract builder performs no probing or execution
and is a pure function of the binary path, the static-facts record, the
command surface, the dynamic-run summary AND the generation timestamp:
two builds agreeing on all five inputs (including the timestamp) produce
byte-identical contract JSON. -/
theorem buildContract_deterministic (b1 b2 now1 now2 : String)
    (st1 st2 : StaticFacts) (su1 su2 : SurfaceResult) (d1 d2 : DynSummaryIn)
    (hb : b1 = b2) (hn : now1 = now2) (hst : st1 = st2) (hsu : su1 = su2)
    (hd : d1 = d2) :
    renderContract (buildContract b1 now1 st1 su1 d1) =
      renderContract (buildContract b2 now2 st2 su2 d2) := by
  subst hb; subst hn; subst hst; subst hsu; subst hd
  rfl

/-- C8 witness: the amended determinism applied at concrete inputs. -/
theorem buildContract_deterministic_witness :
    (("/bin/tool" : String) = "/bin/tool" ∧
      ("2024-01-01T00:00:00Z" : String) = "2024-01-01T00:00:00Z" ∧
      c8Static = c8Static ∧ c8Surface = c8Surface ∧ c8Dyn = c8Dyn) ∧
    renderContract (buildContract "/bin/tool" "2024-01-01T00:00:00Z"
        c8Static c8Surface c8Dyn) =
      renderContract (buildContract "/bin/tool" "2024-01-01T00:00:00Z"
        c8Static c8Surface c8Dyn) :=
  ⟨⟨rfl, rfl, rfl, rfl, rfl⟩,
    buildContract_deterministic _ _ _ _ _ _ _ _ _ _ rfl rfl rfl rfl rfl⟩

end SecSuite
